import Mathlib

/-!
Verification of the transcript annotation and reconciliation engine:
highlight reconciliation after text edits, same-color highlight merging,
and render segmentation, modelled faithfully from the source
(src/src/App.tsx).  Texts are modelled as lists of characters; JS number
offsets are modelled as integers where intermediate values can go
negative and as naturals where the source guarantees non-negativity.
-/

/-- The fixed highlight palette (type HighlightColor in the source). -/
inductive HighlightColor : Type
  | pink
  | orange
  | yellow
  | green
  | blue
  | purple
  deriving DecidableEq

/-- The redundant textual snapshot stored on each highlight
(anchor field of type Highlight in the source).  The source field names
are anchor.text, anchor.prefix, anchor.suffix. -/
structure Anchor : Type where
  text : List Char
  pre : List Char
  suf : List Char
  deriving DecidableEq

/-- A colored span over the transcript (type Highlight in the source).
The source field name for the right endpoint is end, a reserved word
here, hence end_. -/
structure Highlight : Type where
  id : String
  createdAt : Nat
  color : HighlightColor
  start : Nat
  end_ : Nat
  anchor : Anchor
  deriving DecidableEq

/-- clamp(n, min, max) = Math.max(min, Math.min(max, n)) from the source,
over integers. -/
def clampI (n lo hi : Int) : Int :=
  max lo (min hi n)

/-- clamp over naturals, used where the source clamps values that are
already non-negative. -/
def clampN (n lo hi : Nat) : Nat :=
  max lo (min hi n)

/-- text.slice(a, b) for 0 <= a and 0 <= b, as on lists of characters. -/
def jsSlice (t : List Char) (a b : Nat) : List Char :=
  (t.drop a).take (b - a)

/-- Recomputation of a highlight anchor from a text buffer: the exact
span text plus up to 16 characters of context each side, as in the
source (reconcileHighlightsAfterEdit and onApplyHighlight build exactly
this record). -/
def mkAnchor (t : List Char) (a b : Nat) : Anchor :=
  { text := jsSlice t a b
    pre := jsSlice t (a - 16) a
    suf := jsSlice t b (min t.length (b + 16)) }

/-- The common-prefix loop of reconcileHighlightsAfterEdit:
while (p < oldLen and p < newLen and oldText[p] == newText[p]) p++. -/
def commonPrefixLen : List Char → List Char → Nat
  | a :: as, b :: bs => if a = b then commonPrefixLen as bs + 1 else 0
  | _, _ => 0

/-- A common-prefix computation stopped at a fuel bound, used to model
the suffix loop of the source, whose counter is bounded by
oldLen - p and newLen - p in addition to character agreement. -/
def commonPrefixLenBounded : List Char → List Char → Nat → Nat
  | a :: as, b :: bs, cap + 1 =>
      if a = b then commonPrefixLenBounded as bs cap + 1 else 0
  | _, _, _ => 0

/-- The common-suffix loop of reconcileHighlightsAfterEdit:
while (s < oldLen - p and s < newLen - p and
       oldText[oldLen-1-s] == newText[newLen-1-s]) s++.
Comparing from the back is comparing the reversed lists from the front. -/
def suffixLen (oldText newText : List Char) (p : Nat) : Nat :=
  commonPrefixLenBounded oldText.reverse newText.reverse
    (min (oldText.length - p) (newText.length - p))

/-- shiftIndex from reconcileHighlightsAfterEdit: identity before the
edited middle region, shifted by delta after it, and clamped into the
new middle region inside it. -/
def shiftIndex (oldMidStart oldMidEnd newMidStart newMidEnd delta i : Int) : Int :=
  if i ≤ oldMidStart then i
  else if oldMidEnd ≤ i then i + delta
  else clampI (newMidStart + (i - oldMidStart)) newMidStart newMidEnd

/-- The body of the map inside reconcileHighlightsAfterEdit: shift both
offsets of one highlight, reorder and clamp them into [0, newLen], drop
the highlight when the mapped span is empty, refresh its anchor
otherwise.  The diff quantities p, s, the mid regions and delta are
computed from the two buffers exactly as in the source.  The final
reorder-clamp-drop step on the pair of shifted offsets is split out as
mapSpan. -/
def mapSpan (newLen : Nat) (ns ne : Int) : Option (Nat × Nat) :=
  let start := clampI (min ns ne) 0 (newLen : Int)
  let stop := clampI (max ns ne) 0 (newLen : Int)
  if stop ≤ start then none else some (start.toNat, stop.toNat)

def reconcileOne (oldText newText : List Char) (h : Highlight) : Option Highlight :=
  let oldLen := oldText.length
  let newLen := newText.length
  let p := commonPrefixLen oldText newText
  let s := suffixLen oldText newText p
  let oldMidStart : Int := p
  let oldMidEnd : Int := ((oldLen - s : Nat) : Int)
  let newMidStart : Int := p
  let newMidEnd : Int := ((newLen - s : Nat) : Int)
  let delta : Int := (newMidEnd - newMidStart) - (oldMidEnd - oldMidStart)
  let ns := shiftIndex oldMidStart oldMidEnd newMidStart newMidEnd delta (h.start : Int)
  let ne := shiftIndex oldMidStart oldMidEnd newMidStart newMidEnd delta (h.end_ : Int)
  match mapSpan newLen ns ne with
  | none => none
  | some (a, b) =>
    some { h with
      start := a
      end_ := b
      anchor := mkAnchor newText a b }

/-- reconcileHighlightsAfterEdit(oldText, newText, oldHighlights) from
the source: prefix/suffix diff, per-offset shifting, reordering and
clamping of each mapped span, dropping empties, anchor refresh. -/
def reconcileHighlightsAfterEdit (oldText newText : List Char)
    (oldHighlights : List Highlight) : List Highlight :=
  oldHighlights.filterMap (reconcileOne oldText newText)

example :
    (reconcileHighlightsAfterEdit ['a', 'a'] ['a']
      [{ id := "h", createdAt := 0, color := .pink, start := 1, end_ := 2,
         anchor := ⟨['a'], ['a'], []⟩ }]) = [] := by decide

example :
    (reconcileHighlightsAfterEdit ['a', 'b', 'c', 'd', 'e'] ['x', 'y', 'a', 'b', 'c', 'd', 'e']
      [{ id := "h", createdAt := 0, color := .pink, start := 2, end_ := 5,
         anchor := ⟨[], [], []⟩ }]).map (fun h => (h.start, h.end_)) = [(4, 7)] := by decide

/-- The clamped request start computed by onApplyHighlight:
clamp(Math.min(start, end), 0, t.length). -/
def clampedStart (t : List Char) (start end_ : Int) : Nat :=
  (clampI (min start end_) 0 (t.length : Int)).toNat

/-- The clamped request end computed by onApplyHighlight:
clamp(Math.max(start, end), 0, t.length). -/
def clampedEnd (t : List Char) (start end_ : Int) : Nat :=
  (clampI (max start end_) 0 (t.length : Int)).toNat

/-- The comparator used by onApplyHighlight to keep the highlight list
sorted: ascending start, then ascending end. -/
def hlLe (a b : Highlight) : Prop :=
  a.start < b.start ∨ (a.start = b.start ∧ a.end_ ≤ b.end_)

instance : DecidableRel hlLe := fun a b => by
  unfold hlLe
  infer_instance

/-- The sameColorOverlaps filter of onApplyHighlight: existing
highlights of the requested color whose range strictly overlaps the
clamped request (touching does not count:
not (h.end <= s or h.start >= e2)). -/
def sameColorOverlapsOf (existing : List Highlight) (s e2 : Nat)
    (color : HighlightColor) : List Highlight :=
  existing.filter fun h => decide (h.color = color ∧ ¬(h.end_ ≤ s ∨ e2 ≤ h.start))

/-- The keep filter of onApplyHighlight: everything except the
same-color overlaps. -/
def keepOf (existing : List Highlight) (s e2 : Nat) (color : HighlightColor) :
    List Highlight :=
  existing.filter fun h => decide (h.color ≠ color ∨ h.end_ ≤ s ∨ e2 ≤ h.start)

/-- mergedStart of onApplyHighlight: Math.min(s, ...overlap starts). -/
def mergedStartOf (s : Nat) (overlaps : List Highlight) : Nat :=
  overlaps.foldl (fun acc h => min acc h.start) s

/-- mergedEnd of onApplyHighlight: Math.max(e2, ...overlap ends). -/
def mergedEndOf (e2 : Nat) (overlaps : List Highlight) : Nat :=
  overlaps.foldl (fun acc h => max acc h.end_) e2

/-- The per-chapter core of onApplyHighlight from the source: clamp the
request, no-op on an empty span or an identical existing highlight,
merge the same-color overlapping highlights into one fresh highlight,
keep everything else, and sort (the source's Array.sort is stable, as is
insertionSort).  Fresh id and timestamp generation (uid and Date.now in
the source) are passed in as arguments. -/
def applyHighlight (t : List Char) (existing : List Highlight)
    (start end_ : Int) (color : HighlightColor) (newId : String) (now : Nat) :
    List Highlight :=
  let s := clampedStart t start end_
  let e2 := clampedEnd t start end_
  if e2 ≤ s then existing
  else if existing.any fun h => decide (h.start = s ∧ h.end_ = e2 ∧ h.color = color) then
    existing
  else
    let sameColorOverlaps := sameColorOverlapsOf existing s e2 color
    let keep := keepOf existing s e2 color
    let mergedStart := mergedStartOf s sameColorOverlaps
    let mergedEnd := mergedEndOf e2 sameColorOverlaps
    let toAdd : Highlight :=
      { id := newId
        createdAt := now
        color := color
        start := mergedStart
        end_ := mergedEnd
        anchor := mkAnchor t mergedStart mergedEnd }
    (keep ++ [toAdd]).insertionSort hlLe

/-- The observable span of a highlight: offsets and color, without the
fresh-generated id, timestamp and anchor snapshot. -/
def span (h : Highlight) : Nat × Nat × HighlightColor :=
  (h.start, h.end_, h.color)

/-- A search-match range fed to the render segmenter, as built in
renderedTranscript: clamped offsets plus the ordinal of the match. -/
structure SearchRange : Type where
  start : Nat
  end_ : Nat
  hit : Nat
  deriving DecidableEq

/-- One rendered segment: the half-open offset range, the covering
highlight chosen for it (if any) and the search range marking it
(if any). -/
structure Segment : Type where
  a : Nat
  b : Nat
  hl : Option Highlight
  sr : Option SearchRange
  deriving DecidableEq

/-- Step 1 of renderedTranscript: clamp a highlight into the buffer and
drop it when the clamped span is empty. -/
def normalizeHighlight (len : Nat) (h : Highlight) : Option Highlight :=
  let s := clampN h.start 0 len
  let e := clampN h.end_ 0 len
  if e ≤ s then none else some { h with start := s, end_ := e }

/-- The comparator renderedTranscript sorts normalized highlights with:
earlier start first, older first. -/
def hlRenderLe (a b : Highlight) : Prop :=
  a.start < b.start ∨ (a.start = b.start ∧ a.createdAt ≤ b.createdAt)

instance : DecidableRel hlRenderLe := fun a b => by
  unfold hlRenderLe
  infer_instance

/-- The normalized, sorted highlight list used by renderedTranscript. -/
def normalizedHighlights (len : Nat) (highlights : List Highlight) : List Highlight :=
  (highlights.filterMap (normalizeHighlight len)).insertionSort hlRenderLe

/-- Step 3 of renderedTranscript: the deduplicated ascending list of
split boundaries 0, len, and every highlight and search-range endpoint
(a JS Set of numbers, turned into a sorted array). -/
def segmentPoints (len : Nat) (hs : List Highlight) (srs : List SearchRange) : List Nat :=
  ((0 :: len ::
      ((hs.map Highlight.start ++ hs.map Highlight.end_) ++
        (srs.map SearchRange.start ++ srs.map SearchRange.end_))).dedup).insertionSort (· ≤ ·)

/-- topHighlightFor from renderedTranscript: among highlights covering
[a, b), scan for the one with the largest createdAt (strict improvement
only, so the first of equals wins). -/
def topHighlightFor (hs : List Highlight) (a b : Nat) : Option Highlight :=
  match hs.filter fun h => decide (h.start < b ∧ a < h.end_) with
  | [] => none
  | c :: cs => some (cs.foldl (fun best h => if best.createdAt < h.createdAt then h else best) c)

/-- searchFor from renderedTranscript: the first search range covering
[a, b). -/
def searchFor (srs : List SearchRange) (a b : Nat) : Option SearchRange :=
  srs.find? fun r => decide (r.start < b ∧ a < r.end_)

/-- The segment-emitting loop of renderedTranscript over adjacent pairs
of boundary points, with the source's guards skipping inverted pairs and
empty slices. -/
def mkSegments (txt : List Char) (hs : List Highlight) (srs : List SearchRange) :
    List Nat → List Segment
  | a :: b :: rest =>
    let tail := mkSegments txt hs srs (b :: rest)
    if b ≤ a then tail
    else if jsSlice txt a b = [] then tail
    else ⟨a, b, topHighlightFor hs a b, searchFor srs a b⟩ :: tail
  | _ => []

/-- renderedTranscript from the source, as a segment list: normalize and
sort the highlights, collect boundaries, return the whole text as one
unstyled run when there are at most two boundary points, otherwise emit
one styled segment per adjacent boundary pair. -/
def segmentTranscript (txt : List Char) (highlights : List Highlight)
    (srs : List SearchRange) : List Segment :=
  let len := txt.length
  let hs := normalizedHighlights len highlights
  let points := segmentPoints len hs srs
  if points.length ≤ 2 then [⟨0, len, none, none⟩]
  else mkSegments txt hs srs points

example :
    (segmentTranscript ['a', 'b', 'c', 'd']
      [{ id := "h", createdAt := 5, color := .pink, start := 1, end_ := 3,
         anchor := ⟨[], [], []⟩ }] []).map (fun sg => (sg.a, sg.b, (sg.hl.map Highlight.id))) =
      [(0, 1, none), (1, 3, some "h"), (3, 4, none)] := by decide

example :
    segmentTranscript ['a', 'b']
      [{ id := "h", createdAt := 5, color := .pink, start := 0, end_ := 2,
         anchor := ⟨[], [], []⟩ }] [] = [⟨0, 2, none, none⟩] := by decide

example :
    (applyHighlight (List.replicate 10 'a')
      [{ id := "h0", createdAt := 0, color := .pink, start := 0, end_ := 5,
         anchor := ⟨[], [], []⟩ }] 5 10 .pink "id1" 1).map span =
      [(0, 5, .pink), (5, 10, .pink)] := by decide

lemma le_clampI (n lo hi : Int) : lo ≤ clampI n lo hi := by
  unfold clampI
  omega

lemma clampI_le (n lo hi : Int) (h : lo ≤ hi) : clampI n lo hi ≤ hi := by
  unfold clampI
  omega

lemma clampI_of_mem (n lo hi : Int) (h1 : lo ≤ n) (h2 : n ≤ hi) : clampI n lo hi = n := by
  unfold clampI
  omega

lemma mapSpan_valid (newLen : Nat) (ns ne : Int) (a b : Nat)
    (h : mapSpan newLen ns ne = some (a, b)) : a < b ∧ b ≤ newLen := by
  unfold mapSpan at h
  dsimp only [] at h
  split at h
  · exact absurd h (by simp)
  · rename_i hlt
    obtain ⟨rfl, rfl⟩ : _ ∧ _ := by
      have := Option.some.inj h
      exact ⟨congrArg Prod.fst this, congrArg Prod.snd this⟩
    have h1 : (0 : Int) ≤ clampI (min ns ne) 0 (newLen : Int) := le_clampI _ _ _
    have h2 : clampI (max ns ne) 0 (newLen : Int) ≤ (newLen : Int) :=
      clampI_le _ _ _ (by positivity)
    have h3 : (0 : Int) ≤ clampI (max ns ne) 0 (newLen : Int) := le_clampI _ _ _
    constructor <;> omega

lemma mapSpan_of_valid (newLen : Nat) (ns ne : Int)
    (hns : 0 ≤ ns) (hlt : ns < ne) (hne : ne ≤ (newLen : Int)) :
    mapSpan newLen ns ne = some (ns.toNat, ne.toNat) := by
  unfold mapSpan
  have hmin : min ns ne = ns := by omega
  have hmax : max ns ne = ne := by omega
  rw [hmin, hmax, clampI_of_mem _ _ _ hns (by omega), clampI_of_mem _ _ _ (by omega) hne,
    if_neg (by omega)]

lemma commonPrefixLen_self (l : List Char) : commonPrefixLen l l = l.length := by
  induction l with
  | nil => rfl
  | cons a as ih => simp [commonPrefixLen, ih]

lemma commonPrefixLen_le_left (l1 l2 : List Char) :
    commonPrefixLen l1 l2 ≤ l1.length := by
  induction l1 generalizing l2 with
  | nil => simp [commonPrefixLen]
  | cons a as ih =>
    cases l2 with
    | nil => simp [commonPrefixLen]
    | cons b bs =>
      by_cases hab : a = b
      · simpa [commonPrefixLen, hab] using ih bs
      · simp [commonPrefixLen, hab]

lemma commonPrefixLen_le_right (l1 l2 : List Char) :
    commonPrefixLen l1 l2 ≤ l2.length := by
  induction l1 generalizing l2 with
  | nil => simp [commonPrefixLen]
  | cons a as ih =>
    cases l2 with
    | nil => simp [commonPrefixLen]
    | cons b bs =>
      by_cases hab : a = b
      · simpa [commonPrefixLen, hab] using ih bs
      · simp [commonPrefixLen, hab]

lemma commonPrefixLen_take (l1 l2 : List Char) :
    l1.take (commonPrefixLen l1 l2) = l2.take (commonPrefixLen l1 l2) := by
  induction l1 generalizing l2 with
  | nil => simp [commonPrefixLen]
  | cons a as ih =>
    cases l2 with
    | nil => simp [commonPrefixLen]
    | cons b bs =>
      by_cases hab : a = b
      · simp [commonPrefixLen, hab, ih bs]
      · simp [commonPrefixLen, hab]

lemma commonPrefixLenBounded_zero (l1 l2 : List Char) :
    commonPrefixLenBounded l1 l2 0 = 0 := by
  cases l1 <;> cases l2 <;> rfl

lemma commonPrefixLenBounded_le_cap (l1 l2 : List Char) (n : Nat) :
    commonPrefixLenBounded l1 l2 n ≤ n := by
  induction l1 generalizing l2 n with
  | nil => simp [commonPrefixLenBounded]
  | cons a as ih =>
    cases l2 with
    | nil => simp [commonPrefixLenBounded]
    | cons b bs =>
      cases n with
      | zero => simp [commonPrefixLenBounded]
      | succ m =>
        by_cases hab : a = b
        · simpa [commonPrefixLenBounded, hab] using ih bs m
        · simp [commonPrefixLenBounded, hab]

lemma commonPrefixLenBounded_take (l1 l2 : List Char) (n : Nat) :
    l1.take (commonPrefixLenBounded l1 l2 n) = l2.take (commonPrefixLenBounded l1 l2 n) := by
  induction l1 generalizing l2 n with
  | nil => simp [commonPrefixLenBounded]
  | cons a as ih =>
    cases l2 with
    | nil => simp [commonPrefixLenBounded]
    | cons b bs =>
      cases n with
      | zero => simp [commonPrefixLenBounded_zero]
      | succ m =>
        by_cases hab : a = b
        · simp [commonPrefixLenBounded, hab, ih bs m]
        · simp [commonPrefixLenBounded, hab]

lemma suffixLen_le_left (o n : List Char) (p : Nat) :
    suffixLen o n p ≤ o.length - p := by
  unfold suffixLen
  exact le_trans (commonPrefixLenBounded_le_cap _ _ _) (min_le_left _ _)

lemma suffixLen_le_right (o n : List Char) (p : Nat) :
    suffixLen o n p ≤ n.length - p := by
  unfold suffixLen
  exact le_trans (commonPrefixLenBounded_le_cap _ _ _) (min_le_right _ _)

lemma suffixLen_drop (o n : List Char) (p : Nat) :
    o.drop (o.length - suffixLen o n p) = n.drop (n.length - suffixLen o n p) := by
  have h := commonPrefixLenBounded_take o.reverse n.reverse
    (min (o.length - p) (n.length - p))
  have h' : (List.take (suffixLen o n p) o.reverse) = List.take (suffixLen o n p) n.reverse := by
    simpa [suffixLen] using h
  rw [List.take_reverse, List.take_reverse] at h'
  exact List.reverse_injective h'

lemma jsSlice_eq_take_drop (t : List Char) (a b : Nat) :
    jsSlice t a b = (t.take b).drop a := by
  rw [jsSlice, List.drop_take]

lemma jsSlice_append (t : List Char) (a b c : Nat) (h1 : a ≤ b) (h2 : b ≤ c) :
    jsSlice t a b ++ jsSlice t b c = jsSlice t a c := by
  unfold jsSlice
  have hc : c - a = (b - a) + (c - b) := by omega
  rw [hc, List.take_add]
  congr 2
  rw [List.drop_drop]
  congr 1
  omega

lemma jsSlice_prefix_eq (l1 l2 : List Char) (p a b : Nat)
    (hp : l1.take p = l2.take p) (hb : b ≤ p) : jsSlice l1 a b = jsSlice l2 a b := by
  rw [jsSlice_eq_take_drop, jsSlice_eq_take_drop]
  have h1 : l1.take b = l2.take b := by
    have := congrArg (List.take b) hp
    simpa [List.take_take, Nat.min_eq_left hb] using this
  rw [h1]

lemma jsSlice_suffix_eq (l1 l2 : List Char) (d1 d2 a b : Nat)
    (hd : l1.drop d1 = l2.drop d2) (ha : d1 ≤ a) (hb : d1 ≤ b) :
    jsSlice l1 a b = jsSlice l2 (a - d1 + d2) (b - d1 + d2) := by
  unfold jsSlice
  have h1 : l1.drop a = (l1.drop d1).drop (a - d1) := by
    rw [List.drop_drop]
    congr 1
    omega
  have h2 : l2.drop (a - d1 + d2) = (l2.drop d2).drop (a - d1) := by
    rw [List.drop_drop]
    congr 1
    omega
  rw [h1, h2, hd]
  congr 1
  omega

/-- C1: every highlight surviving reconcileHighlightsAfterEdit satisfies
0 <= start < end <= length(newText); a mapped span that would be empty is
dropped rather than returned (the bounds hold for every member of the
output, so no empty-span highlight occurs in it). -/
theorem reconcile_ranges_valid (oldText newText : List Char) (hl : List Highlight)
    (h : Highlight) (hmem : h ∈ reconcileHighlightsAfterEdit oldText newText hl) :
    h.start < h.end_ ∧ h.end_ ≤ newText.length := by
  unfold reconcileHighlightsAfterEdit at hmem
  simp only [List.mem_filterMap] at hmem
  obtain ⟨h0, -, heq⟩ := hmem
  unfold reconcileOne at heq
  dsimp only [] at heq
  split at heq
  · exact absurd heq (by simp)
  · rename_i a b hms
    obtain rfl : _ = h := Option.some.inj heq
    exact mapSpan_valid _ _ _ _ _ hms

/-- Concrete instantiation of reconcile_ranges_valid. -/
theorem reconcile_ranges_valid_witness :
    ({ id := "h", createdAt := 0, color := .pink, start := 0, end_ := 2,
       anchor := ⟨['a', 'c'], [], []⟩ } : Highlight).start <
      ({ id := "h", createdAt := 0, color := .pink, start := 0, end_ := 2,
         anchor := ⟨['a', 'c'], [], []⟩ } : Highlight).end_ ∧
    ({ id := "h", createdAt := 0, color := .pink, start := 0, end_ := 2,
       anchor := ⟨['a', 'c'], [], []⟩ } : Highlight).end_ ≤ (['a', 'c'] : List Char).length :=
  reconcile_ranges_valid ['a', 'b', 'c'] ['a', 'c']
    [{ id := "h", createdAt := 0, color := .pink, start := 0, end_ := 3,
       anchor := ⟨[], [], []⟩ }] _ (by decide)

lemma shiftIndex_of_le (oldMidStart oldMidEnd newMidStart newMidEnd delta i : Int)
    (hi : i ≤ oldMidStart) :
    shiftIndex oldMidStart oldMidEnd newMidStart newMidEnd delta i = i := by
  unfold shiftIndex
  rw [if_pos hi]

lemma shiftIndex_of_ge (oldMidStart oldMidEnd newMidStart newMidEnd delta i : Int)
    (h1 : ¬ i ≤ oldMidStart) (h2 : oldMidEnd ≤ i) :
    shiftIndex oldMidStart oldMidEnd newMidStart newMidEnd delta i = i + delta := by
  unfold shiftIndex
  rw [if_neg h1, if_pos h2]

lemma suffixLen_self (t : List Char) : suffixLen t t t.length = 0 := by
  unfold suffixLen
  simp [commonPrefixLenBounded_zero]

lemma reconcileOne_same_text (t : List Char) (h : Highlight)
    (h1 : h.start < h.end_) (h2 : h.end_ ≤ t.length) :
    reconcileOne t t h = some { h with anchor := mkAnchor t h.start h.end_ } := by
  have hstart : ((h.start : Int)) ≤ (t.length : Int) := by
    have := h1.le.trans h2
    exact_mod_cast this
  have hend : ((h.end_ : Int)) ≤ (t.length : Int) := by exact_mod_cast h2
  unfold reconcileOne
  simp only [commonPrefixLen_self, suffixLen_self, Nat.sub_zero, sub_self, sub_zero]
  rw [shiftIndex_of_le _ _ _ _ _ _ hstart, shiftIndex_of_le _ _ _ _ _ _ hend,
    mapSpan_of_valid _ _ _ (by positivity) (by exact_mod_cast h1) hend]
  simp

/-- C10: reconciliation with an unchanged buffer is the identity on
offsets: every in-bounds highlight survives with exactly the same start
and end. -/
theorem reconcile_same_text_offsets (t : List Char) (hs : List Highlight)
    (hwf : ∀ h ∈ hs, h.start < h.end_ ∧ h.end_ ≤ t.length) :
    (reconcileHighlightsAfterEdit t t hs).map (fun h => (h.start, h.end_)) =
      hs.map fun h => (h.start, h.end_) := by
  induction hs with
  | nil => rfl
  | cons h tl ih =>
    have hh := hwf h (List.mem_cons_self _ _)
    have htl := ih fun x hx => hwf x (List.mem_cons_of_mem _ hx)
    simp only [reconcileHighlightsAfterEdit, List.filterMap_cons,
      reconcileOne_same_text t h hh.1 hh.2] at htl ⊢
    simp only [List.map_cons]
    exact congrArg _ htl

/-- Concrete instantiation of reconcile_same_text_offsets. -/
theorem reconcile_same_text_offsets_witness :
    (reconcileHighlightsAfterEdit ['a', 'b', 'c'] ['a', 'b', 'c']
        [{ id := "h", createdAt := 0, color := .pink, start := 1, end_ := 3,
           anchor := ⟨[], [], []⟩ }]).map (fun h => (h.start, h.end_)) =
      ([{ id := "h", createdAt := 0, color := .pink, start := 1, end_ := 3,
          anchor := ⟨[], [], []⟩ }] : List Highlight).map fun h => (h.start, h.end_) :=
  reconcile_same_text_offsets ['a', 'b', 'c'] _ (by decide)

/-- C3 counterexample: with oldText = "ab" and newText = "xy" the edited
middle region is [0, 2) on both sides (p = 0, s = 0, delta = 0), and the
interior offset i = 1 is mapped to 1, which is strictly inside
[newMidStart, newMidEnd] = [0, 2] and equal to neither boundary. -/
theorem shiftIndex_interior_counterexample :
    commonPrefixLen ['a', 'b'] ['x', 'y'] = 0 ∧
    suffixLen ['a', 'b'] ['x', 'y'] (commonPrefixLen ['a', 'b'] ['x', 'y']) = 0 ∧
    ((0 : Int) < 1 ∧ (1 : Int) < 2) ∧
    shiftIndex 0 2 0 2 0 1 = 1 ∧ (1 : Int) ≠ 0 ∧ (1 : Int) ≠ 2 := by decide

/-- C3 (amended): for every offset strictly inside the old edited region,
the mapped offset keeps its distance from the region start and is clamped
into the new edited region: it equals
clamp(newMidStart + (i - oldMidStart), newMidStart, newMidEnd), and in
all cases lies within [newMidStart, newMidEnd]; it is not pinned to a
boundary when the clamp does not bind. -/
theorem shiftIndex_interior (oldText newText : List Char) (i : Int)
    (hlo : ((commonPrefixLen oldText newText : Nat) : Int) < i)
    (hhi : i < ((oldText.length -
        suffixLen oldText newText (commonPrefixLen oldText newText) : Nat) : Int)) :
    ((commonPrefixLen oldText newText : Nat) : Int) ≤
        shiftIndex (commonPrefixLen oldText newText)
          ((oldText.length -
              suffixLen oldText newText (commonPrefixLen oldText newText) : Nat) : Int)
          (commonPrefixLen oldText newText)
          ((newText.length -
              suffixLen oldText newText (commonPrefixLen oldText newText) : Nat) : Int)
          (((newText.length -
                suffixLen oldText newText (commonPrefixLen oldText newText) : Nat) : Int) -
              ((oldText.length -
                  suffixLen oldText newText (commonPrefixLen oldText newText) : Nat) : Int))
          i ∧
      shiftIndex (commonPrefixLen oldText newText)
          ((oldText.length -
              suffixLen oldText newText (commonPrefixLen oldText newText) : Nat) : Int)
          (commonPrefixLen oldText newText)
          ((newText.length -
              suffixLen oldText newText (commonPrefixLen oldText newText) : Nat) : Int)
          (((newText.length -
                suffixLen oldText newText (commonPrefixLen oldText newText) : Nat) : Int) -
              ((oldText.length -
                  suffixLen oldText newText (commonPrefixLen oldText newText) : Nat) : Int))
          i ≤
        ((newText.length -
            suffixLen oldText newText (commonPrefixLen oldText newText) : Nat) : Int) ∧
      shiftIndex (commonPrefixLen oldText newText)
          ((oldText.length -
              suffixLen oldText newText (commonPrefixLen oldText newText) : Nat) : Int)
          (commonPrefixLen oldText newText)
          ((newText.length -
              suffixLen oldText newText (commonPrefixLen oldText newText) : Nat) : Int)
          (((newText.length -
                suffixLen oldText newText (commonPrefixLen oldText newText) : Nat) : Int) -
              ((oldText.length -
                  suffixLen oldText newText (commonPrefixLen oldText newText) : Nat) : Int))
          i =
        clampI ((commonPrefixLen oldText newText : Int) +
            (i - (commonPrefixLen oldText newText : Int)))
          (commonPrefixLen oldText newText)
          ((newText.length -
              suffixLen oldText newText (commonPrefixLen oldText newText) : Nat) : Int) := by
  have hple : commonPrefixLen oldText newText ≤ newText.length :=
    commonPrefixLen_le_right _ _
  have hsle : suffixLen oldText newText (commonPrefixLen oldText newText) ≤
      newText.length - commonPrefixLen oldText newText := suffixLen_le_right _ _ _
  have hbound : ((commonPrefixLen oldText newText : Nat) : Int) ≤
      ((newText.length -
          suffixLen oldText newText (commonPrefixLen oldText newText) : Nat) : Int) := by
    omega
  unfold shiftIndex
  rw [if_neg (by omega), if_neg (by omega)]
  exact ⟨le_clampI _ _ _, clampI_le _ _ _ hbound, rfl⟩

/-- Concrete instantiation of shiftIndex_interior. -/
theorem shiftIndex_interior_witness :
    ((commonPrefixLen ['a', 'b'] ['x', 'y', 'z'] : Nat) : Int) ≤
        shiftIndex (commonPrefixLen ['a', 'b'] ['x', 'y', 'z'])
          ((['a', 'b'].length -
              suffixLen ['a', 'b'] ['x', 'y', 'z'] (commonPrefixLen ['a', 'b'] ['x', 'y', 'z']) : Nat) : Int)
          (commonPrefixLen ['a', 'b'] ['x', 'y', 'z'])
          ((['x', 'y', 'z'].length -
              suffixLen ['a', 'b'] ['x', 'y', 'z'] (commonPrefixLen ['a', 'b'] ['x', 'y', 'z']) : Nat) : Int)
          (((['x', 'y', 'z'].length -
                suffixLen ['a', 'b'] ['x', 'y', 'z'] (commonPrefixLen ['a', 'b'] ['x', 'y', 'z']) : Nat) : Int) -
              ((['a', 'b'].length -
                  suffixLen ['a', 'b'] ['x', 'y', 'z'] (commonPrefixLen ['a', 'b'] ['x', 'y', 'z']) : Nat) : Int))
          1 ∧
      shiftIndex (commonPrefixLen ['a', 'b'] ['x', 'y', 'z'])
          ((['a', 'b'].length -
              suffixLen ['a', 'b'] ['x', 'y', 'z'] (commonPrefixLen ['a', 'b'] ['x', 'y', 'z']) : Nat) : Int)
          (commonPrefixLen ['a', 'b'] ['x', 'y', 'z'])
          ((['x', 'y', 'z'].length -
              suffixLen ['a', 'b'] ['x', 'y', 'z'] (commonPrefixLen ['a', 'b'] ['x', 'y', 'z']) : Nat) : Int)
          (((['x', 'y', 'z'].length -
                suffixLen ['a', 'b'] ['x', 'y', 'z'] (commonPrefixLen ['a', 'b'] ['x', 'y', 'z']) : Nat) : Int) -
              ((['a', 'b'].length -
                  suffixLen ['a', 'b'] ['x', 'y', 'z'] (commonPrefixLen ['a', 'b'] ['x', 'y', 'z']) : Nat) : Int))
          1 ≤
        ((['x', 'y', 'z'].length -
            suffixLen ['a', 'b'] ['x', 'y', 'z'] (commonPrefixLen ['a', 'b'] ['x', 'y', 'z']) : Nat) : Int) ∧
      shiftIndex (commonPrefixLen ['a', 'b'] ['x', 'y', 'z'])
          ((['a', 'b'].length -
              suffixLen ['a', 'b'] ['x', 'y', 'z'] (commonPrefixLen ['a', 'b'] ['x', 'y', 'z']) : Nat) : Int)
          (commonPrefixLen ['a', 'b'] ['x', 'y', 'z'])
          ((['x', 'y', 'z'].length -
              suffixLen ['a', 'b'] ['x', 'y', 'z'] (commonPrefixLen ['a', 'b'] ['x', 'y', 'z']) : Nat) : Int)
          (((['x', 'y', 'z'].length -
                suffixLen ['a', 'b'] ['x', 'y', 'z'] (commonPrefixLen ['a', 'b'] ['x', 'y', 'z']) : Nat) : Int) -
              ((['a', 'b'].length -
                  suffixLen ['a', 'b'] ['x', 'y', 'z'] (commonPrefixLen ['a', 'b'] ['x', 'y', 'z']) : Nat) : Int))
          1 =
        clampI ((commonPrefixLen ['a', 'b'] ['x', 'y', 'z'] : Int) +
            (1 - (commonPrefixLen ['a', 'b'] ['x', 'y', 'z'] : Int)))
          (commonPrefixLen ['a', 'b'] ['x', 'y', 'z'])
          ((['x', 'y', 'z'].length -
              suffixLen ['a', 'b'] ['x', 'y', 'z'] (commonPrefixLen ['a', 'b'] ['x', 'y', 'z']) : Nat) : Int) :=
  shiftIndex_interior ['a', 'b'] ['x', 'y', 'z'] 1 (by decide) (by decide)

/-- C2 counterexample: newText "a" differs from oldText "aa" by a single
replacement of the region [0, 1) with the empty string, and that edit
region ends at offset 1, at or before the smallest highlight start (1),
so the claim requires the highlight [1, 2) to survive with span text
"a".  Reconciliation instead drops it: the diff computes p = 1 and
s = 0, the highlight collapses into the empty new middle region, and the
output is empty. -/
theorem reconcile_outside_edit_counterexample :
    (['a'] : List Char) =
      (['a', 'a'] : List Char).take 0 ++ ([] : List Char) ++ (['a', 'a'] : List Char).drop 1 ∧
    (1 : Nat) ≤ 1 ∧
    reconcileHighlightsAfterEdit ['a', 'a'] ['a']
      [{ id := "h", createdAt := 0, color := .pink, start := 1, end_ := 2,
         anchor := ⟨['a'], ['a'], []⟩ }] = [] := by decide

/-- C2 (amended): a highlight's span text survives reconciliation
unchanged whenever the highlight lies outside the computed diff region:
either entirely inside the common prefix (end <= p), or entirely inside
the retained suffix and strictly after the prefix (p < start and
oldLen - s <= start).  The original claim's edit-region condition is not
enough, because the computed prefix/suffix diff can disagree with the
edit decomposition when the replacement is ambiguous with adjacent text
(see the counterexample). -/
theorem reconcile_outside_diff_preserves (oldText newText : List Char)
    (hs : List Highlight) (h : Highlight) (hmem : h ∈ hs)
    (hv1 : h.start < h.end_) (hv2 : h.end_ ≤ oldText.length)
    (hout : h.end_ ≤ commonPrefixLen oldText newText ∨
      (commonPrefixLen oldText newText < h.start ∧
        oldText.length - suffixLen oldText newText (commonPrefixLen oldText newText) ≤
          h.start)) :
    ∃ h' ∈ reconcileHighlightsAfterEdit oldText newText hs,
      h'.id = h.id ∧
      jsSlice newText h'.start h'.end_ = jsSlice oldText h.start h.end_ := by
  have hpO : commonPrefixLen oldText newText ≤ oldText.length := commonPrefixLen_le_left _ _
  have hpN : commonPrefixLen oldText newText ≤ newText.length := commonPrefixLen_le_right _ _
  have hsO : suffixLen oldText newText (commonPrefixLen oldText newText) ≤
      oldText.length - commonPrefixLen oldText newText := suffixLen_le_left _ _ _
  have hsN : suffixLen oldText newText (commonPrefixLen oldText newText) ≤
      newText.length - commonPrefixLen oldText newText := suffixLen_le_right _ _ _
  rcases hout with hcase | ⟨hgt, hge⟩
  · -- the highlight lies inside the common prefix: offsets unchanged
    refine ⟨{ h with anchor := mkAnchor newText h.start h.end_ }, ?_, rfl, ?_⟩
    · apply List.mem_filterMap.mpr
      refine ⟨h, hmem, ?_⟩
      unfold reconcileOne
      dsimp only []
      have hstart : ((h.start : Int)) ≤ ((commonPrefixLen oldText newText : Nat) : Int) := by
        have : h.start ≤ commonPrefixLen oldText newText := (hv1.le.trans hcase)
        exact_mod_cast this
      have hend : ((h.end_ : Int)) ≤ ((commonPrefixLen oldText newText : Nat) : Int) := by
        exact_mod_cast hcase
      rw [shiftIndex_of_le _ _ _ _ _ _ hstart, shiftIndex_of_le _ _ _ _ _ _ hend,
        mapSpan_of_valid _ _ _ (by positivity) (by exact_mod_cast hv1)
          (by exact_mod_cast hcase.trans hpN)]
      simp
    · exact jsSlice_prefix_eq newText oldText (commonPrefixLen oldText newText) _ _
        (commonPrefixLen_take oldText newText).symm hcase
  · -- the highlight lies inside the retained suffix: offsets shifted
    have hd : oldText.drop
        (oldText.length - suffixLen oldText newText (commonPrefixLen oldText newText)) =
        newText.drop
          (newText.length - suffixLen oldText newText (commonPrefixLen oldText newText)) :=
      suffixLen_drop oldText newText (commonPrefixLen oldText newText)
    have hdb : oldText.length - suffixLen oldText newText (commonPrefixLen oldText newText) ≤
        h.end_ := hge.trans hv1.le
    refine ⟨{ h with
        start := h.start -
            (oldText.length - suffixLen oldText newText (commonPrefixLen oldText newText)) +
            (newText.length - suffixLen oldText newText (commonPrefixLen oldText newText))
        end_ := h.end_ -
            (oldText.length - suffixLen oldText newText (commonPrefixLen oldText newText)) +
            (newText.length - suffixLen oldText newText (commonPrefixLen oldText newText))
        anchor := mkAnchor newText
          (h.start -
            (oldText.length - suffixLen oldText newText (commonPrefixLen oldText newText)) +
            (newText.length - suffixLen oldText newText (commonPrefixLen oldText newText)))
          (h.end_ -
            (oldText.length - suffixLen oldText newText (commonPrefixLen oldText newText)) +
            (newText.length - suffixLen oldText newText (commonPrefixLen oldText newText))) },
      ?_, rfl, ?_⟩
    · apply List.mem_filterMap.mpr
      refine ⟨h, hmem, ?_⟩
      unfold reconcileOne
      dsimp only []
      have hns : ¬ ((h.start : Int)) ≤ ((commonPrefixLen oldText newText : Nat) : Int) := by
        have : ¬ h.start ≤ commonPrefixLen oldText newText := by omega
        exact_mod_cast this
      have hne : ¬ ((h.end_ : Int)) ≤ ((commonPrefixLen oldText newText : Nat) : Int) := by
        have : ¬ h.end_ ≤ commonPrefixLen oldText newText := by omega
        exact_mod_cast this
      have hges : ((oldText.length -
          suffixLen oldText newText (commonPrefixLen oldText newText) : Nat) : Int) ≤
          (h.start : Int) := by exact_mod_cast hge
      have hgee : ((oldText.length -
          suffixLen oldText newText (commonPrefixLen oldText newText) : Nat) : Int) ≤
          (h.end_ : Int) := by exact_mod_cast hdb
      rw [shiftIndex_of_ge _ _ _ _ _ _ hns hges, shiftIndex_of_ge _ _ _ _ _ _ hne hgee,
        mapSpan_of_valid _ _ _ (by omega) (by omega) (by omega)]
      have ha : ((h.start : Int) +
          (((newText.length -
              suffixLen oldText newText (commonPrefixLen oldText newText) : Nat) : Int) -
            ((commonPrefixLen oldText newText : Nat) : Int) -
            (((oldText.length -
                suffixLen oldText newText (commonPrefixLen oldText newText) : Nat) : Int) -
              ((commonPrefixLen oldText newText : Nat) : Int)))).toNat =
          h.start -
            (oldText.length - suffixLen oldText newText (commonPrefixLen oldText newText)) +
            (newText.length - suffixLen oldText newText (commonPrefixLen oldText newText)) := by
        omega
      have hb : ((h.end_ : Int) +
          (((newText.length -
              suffixLen oldText newText (commonPrefixLen oldText newText) : Nat) : Int) -
            ((commonPrefixLen oldText newText : Nat) : Int) -
            (((oldText.length -
                suffixLen oldText newText (commonPrefixLen oldText newText) : Nat) : Int) -
              ((commonPrefixLen oldText newText : Nat) : Int)))).toNat =
          h.end_ -
            (oldText.length - suffixLen oldText newText (commonPrefixLen oldText newText)) +
            (newText.length - suffixLen oldText newText (commonPrefixLen oldText newText)) := by
        omega
      rw [ha, hb]
    · exact (jsSlice_suffix_eq oldText newText
        (oldText.length - suffixLen oldText newText (commonPrefixLen oldText newText))
        (newText.length - suffixLen oldText newText (commonPrefixLen oldText newText))
        h.start h.end_ hd hge hdb).symm

/-- A concrete highlight [2, 4) over the text "abcd". -/
def cdHighlight : Highlight :=
  { id := "h", createdAt := 0, color := .pink, start := 2, end_ := 4,
    anchor := ⟨['c', 'd'], [], []⟩ }

/-- Concrete instantiation of reconcile_outside_diff_preserves: editing
"abcd" into "axcd" preserves the highlight [2, 4) ("cd"). -/
theorem reconcile_outside_diff_preserves_witness :
    ∃ h' ∈ reconcileHighlightsAfterEdit ['a', 'b', 'c', 'd'] ['a', 'x', 'c', 'd'] [cdHighlight],
      h'.id = cdHighlight.id ∧
      jsSlice ['a', 'x', 'c', 'd'] h'.start h'.end_ =
        jsSlice ['a', 'b', 'c', 'd'] cdHighlight.start cdHighlight.end_ :=
  reconcile_outside_diff_preserves ['a', 'b', 'c', 'd'] ['a', 'x', 'c', 'd'] _ _
    (by decide) (by decide) (by decide) (by decide)

lemma applyHighlight_mem_keep (t : List Char) (existing : List Highlight)
    (start end_ : Int) (color : HighlightColor) (newId : String) (now : Nat)
    (h : Highlight) (hmem : h ∈ existing)
    (hkeep : h.color ≠ color ∨ h.end_ ≤ clampedStart t start end_ ∨
      clampedEnd t start end_ ≤ h.start) :
    h ∈ applyHighlight t existing start end_ color newId now := by
  unfold applyHighlight
  dsimp only []
  split
  · exact hmem
  · split
    · exact hmem
    · rw [List.Perm.mem_iff (List.perm_insertionSort _ _)]
      exact List.mem_append_left _ (List.mem_filter.mpr ⟨hmem, decide_eq_true hkeep⟩)

/-- C6: applyHighlight leaves highlights of other colors exactly
unchanged: any existing highlight whose color differs from the request
is itself (all fields identical) a member of the result. -/
theorem applyHighlight_other_colors_untouched (t : List Char) (existing : List Highlight)
    (start end_ : Int) (color : HighlightColor) (newId : String) (now : Nat)
    (h : Highlight) (hmem : h ∈ existing) (hcolor : h.color ≠ color) :
    h ∈ applyHighlight t existing start end_ color newId now :=
  applyHighlight_mem_keep t existing start end_ color newId now h hmem (Or.inl hcolor)

/-- A concrete blue highlight [0, 2). -/
def blueH02 : Highlight :=
  { id := "b", createdAt := 0, color := .blue, start := 0, end_ := 2,
    anchor := ⟨['a', 'b'], [], []⟩ }

/-- Concrete instantiation of applyHighlight_other_colors_untouched:
a pink request over the blue highlight's exact range keeps the blue
highlight, with all fields, in the result. -/
theorem applyHighlight_other_colors_untouched_witness :
    blueH02 ∈ applyHighlight ['a', 'b'] [blueH02] 0 2 .pink "p1" 7 :=
  applyHighlight_other_colors_untouched ['a', 'b'] [blueH02] 0 2 .pink "p1" 7
    blueH02 (by decide) (by decide)

/-- A concrete pink highlight [0, 5). -/
def pinkH05 : Highlight :=
  { id := "h0", createdAt := 0, color := .pink, start := 0, end_ := 5,
    anchor := ⟨[], [], []⟩ }

/-- C4 counterexample: with an existing pink highlight [0, 5) and a pink
request [5, 10) touching it at the single point 5, the result keeps two
separate pink highlights [0, 5) and [5, 10); no merged highlight
covering [0, 10) is produced, because the overlap test
(not (h.end <= start or h.start >= end)) excludes ranges that merely
touch. -/
theorem applyHighlight_adjacent_counterexample :
    (applyHighlight (List.replicate 10 'a') [pinkH05] 5 10 .pink "id1" 1).map span =
      [(0, 5, .pink), (5, 10, .pink)] ∧
    ¬ (0, 10, HighlightColor.pink) ∈
        (applyHighlight (List.replicate 10 'a') [pinkH05] 5 10 .pink "id1" 1).map span := by
  decide

/-- C4 (amended): an existing same-color highlight whose range merely
touches the clamped request at a single point (h.end = start or
h.start = end), or lies outside it, is not merged: it survives in the
result unchanged.  Only strictly overlapping same-color highlights are
merged. -/
theorem applyHighlight_adjacent_not_merged (t : List Char) (existing : List Highlight)
    (start end_ : Int) (color : HighlightColor) (newId : String) (now : Nat)
    (h : Highlight) (hmem : h ∈ existing) (hcolor : h.color = color)
    (htouch : h.end_ ≤ clampedStart t start end_ ∨ clampedEnd t start end_ ≤ h.start) :
    h ∈ applyHighlight t existing start end_ color newId now :=
  applyHighlight_mem_keep t existing start end_ color newId now h hmem (Or.inr htouch)

/-- Concrete instantiation of applyHighlight_adjacent_not_merged: the
pink highlight [0, 5) survives a pink request [5, 10) unchanged. -/
theorem applyHighlight_adjacent_not_merged_witness :
    pinkH05 ∈ applyHighlight (List.replicate 10 'a') [pinkH05] 5 10 .pink "id1" 1 :=
  applyHighlight_adjacent_not_merged (List.replicate 10 'a') [pinkH05] 5 10 .pink "id1" 1
    pinkH05 (by decide) (by decide) (by decide)

lemma applyHighlight_of_empty (t : List Char) (existing : List Highlight)
    (start end_ : Int) (color : HighlightColor) (newId : String) (now : Nat)
    (h : clampedEnd t start end_ ≤ clampedStart t start end_) :
    applyHighlight t existing start end_ color newId now = existing := by
  unfold applyHighlight
  dsimp only []
  rw [if_pos h]

lemma applyHighlight_of_exists (t : List Char) (existing : List Highlight)
    (start end_ : Int) (color : HighlightColor) (newId : String) (now : Nat)
    (h1 : ¬ clampedEnd t start end_ ≤ clampedStart t start end_)
    (h2 : (existing.any fun h => decide (h.start = clampedStart t start end_ ∧
      h.end_ = clampedEnd t start end_ ∧ h.color = color)) = true) :
    applyHighlight t existing start end_ color newId now = existing := by
  unfold applyHighlight
  dsimp only []
  rw [if_neg h1, if_pos h2]

lemma applyHighlight_of_merge (t : List Char) (existing : List Highlight)
    (start end_ : Int) (color : HighlightColor) (newId : String) (now : Nat)
    (h1 : ¬ clampedEnd t start end_ ≤ clampedStart t start end_)
    (h2 : ¬ (existing.any fun h => decide (h.start = clampedStart t start end_ ∧
      h.end_ = clampedEnd t start end_ ∧ h.color = color)) = true) :
    applyHighlight t existing start end_ color newId now =
      (keepOf existing (clampedStart t start end_) (clampedEnd t start end_) color ++
        [({ id := newId,
            createdAt := now,
            color := color,
            start := mergedStartOf (clampedStart t start end_)
              (sameColorOverlapsOf existing (clampedStart t start end_)
                (clampedEnd t start end_) color),
            end_ := mergedEndOf (clampedEnd t start end_)
              (sameColorOverlapsOf existing (clampedStart t start end_)
                (clampedEnd t start end_) color),
            anchor := mkAnchor t
              (mergedStartOf (clampedStart t start end_)
                (sameColorOverlapsOf existing (clampedStart t start end_)
                  (clampedEnd t start end_) color))
              (mergedEndOf (clampedEnd t start end_)
                (sameColorOverlapsOf existing (clampedStart t start end_)
                  (clampedEnd t start end_) color)) } : Highlight)]).insertionSort hlLe := by
  unfold applyHighlight
  dsimp only []
  rw [if_neg h1, if_neg h2]

lemma mergedStartOf_cons (s : Nat) (x : Highlight) (tl : List Highlight) :
    mergedStartOf s (x :: tl) = mergedStartOf (min s x.start) tl := rfl

lemma mergedEndOf_cons (e2 : Nat) (x : Highlight) (tl : List Highlight) :
    mergedEndOf e2 (x :: tl) = mergedEndOf (max e2 x.end_) tl := rfl

lemma mergedStartOf_le : ∀ (l : List Highlight) (s : Nat), mergedStartOf s l ≤ s := by
  intro l
  induction l with
  | nil => intro s; exact le_refl s
  | cons x tl ih =>
    intro s
    rw [mergedStartOf_cons]
    exact le_trans (ih _) (Nat.min_le_left _ _)

lemma mergedStartOf_le_mem : ∀ (l : List Highlight) (s : Nat) (o : Highlight),
    o ∈ l → mergedStartOf s l ≤ o.start := by
  intro l
  induction l with
  | nil => intro s o ho; cases ho
  | cons x tl ih =>
    intro s o ho
    rw [mergedStartOf_cons]
    rcases List.mem_cons.mp ho with rfl | hmem
    · exact le_trans (mergedStartOf_le _ _) (Nat.min_le_right _ _)
    · exact ih _ _ hmem

lemma le_mergedStartOf : ∀ (l : List Highlight) (s c : Nat), c ≤ s →
    (∀ o ∈ l, c ≤ o.start) → c ≤ mergedStartOf s l := by
  intro l
  induction l with
  | nil => intro s c hc _; exact hc
  | cons x tl ih =>
    intro s c hc h
    rw [mergedStartOf_cons]
    exact ih _ _ (le_min hc (h x (List.mem_cons_self _ _)))
      fun o ho => h o (List.mem_cons_of_mem _ ho)

lemma le_mergedEndOf : ∀ (l : List Highlight) (e2 : Nat), e2 ≤ mergedEndOf e2 l := by
  intro l
  induction l with
  | nil => intro e2; exact le_refl e2
  | cons x tl ih =>
    intro e2
    rw [mergedEndOf_cons]
    exact le_trans (Nat.le_max_left _ _) (ih _)

lemma mem_le_mergedEndOf : ∀ (l : List Highlight) (e2 : Nat) (o : Highlight),
    o ∈ l → o.end_ ≤ mergedEndOf e2 l := by
  intro l
  induction l with
  | nil => intro e2 o ho; cases ho
  | cons x tl ih =>
    intro e2 o ho
    rw [mergedEndOf_cons]
    rcases List.mem_cons.mp ho with rfl | hmem
    · exact le_trans (Nat.le_max_right _ _) (le_mergedEndOf _ _)
    · exact ih _ _ hmem

lemma mergedEndOf_le : ∀ (l : List Highlight) (e2 c : Nat), e2 ≤ c →
    (∀ o ∈ l, o.end_ ≤ c) → mergedEndOf e2 l ≤ c := by
  intro l
  induction l with
  | nil => intro e2 c hc _; exact hc
  | cons x tl ih =>
    intro e2 c hc h
    rw [mergedEndOf_cons]
    exact ih _ _ (max_le hc (h x (List.mem_cons_self _ _)))
      fun o ho => h o (List.mem_cons_of_mem _ ho)

/-- A concrete pink highlight [0, 10). -/
def pinkH010 : Highlight :=
  { id := "h0", createdAt := 0, color := .pink, start := 0, end_ := 10,
    anchor := ⟨[], [], []⟩ }

/-- C5 counterexample: with an existing pink highlight [0, 10), applying
pink (5, 15) once merges to one pink highlight [0, 15); applying the
same request a second time does not find an existing highlight equal to
the clamped request (5, 15), so it deletes the merged highlight and
recreates it with a fresh id and createdAt.  The resulting highlight set
differs from the single-application result. -/
theorem applyHighlight_not_idempotent_counterexample :
    applyHighlight (List.replicate 20 'a')
        (applyHighlight (List.replicate 20 'a') [pinkH010] 5 15 .pink "id1" 1)
        5 15 .pink "id2" 2 ≠
      applyHighlight (List.replicate 20 'a') [pinkH010] 5 15 .pink "id1" 1 := by
  decide


/-- C5 (amended): applyHighlight is idempotent up to the fresh id and
createdAt: re-applying the same (start, end, color) request leaves the
multiset of highlight spans (start, end, color) unchanged.  When the
first application's merged range extends beyond the clamped request, the
second application replaces the merged highlight by one with identical
span but fresh id and createdAt, so the full records are not preserved
(see the counterexample); otherwise it is a strict no-op. -/
theorem applyHighlight_idempotent_spans (t : List Char) (existing : List Highlight)
    (start end_ : Int) (color : HighlightColor) (id1 id2 : String) (n1 n2 : Nat) :
    ((applyHighlight t (applyHighlight t existing start end_ color id1 n1)
        start end_ color id2 n2).map span).Perm
      ((applyHighlight t existing start end_ color id1 n1).map span) := by
  by_cases hempty : clampedEnd t start end_ ≤ clampedStart t start end_
  · rw [applyHighlight_of_empty t existing start end_ color id1 n1 hempty,
      applyHighlight_of_empty t existing start end_ color id2 n2 hempty]
  · by_cases hex : (existing.any fun h => decide (h.start = clampedStart t start end_ ∧
        h.end_ = clampedEnd t start end_ ∧ h.color = color)) = true
    · rw [applyHighlight_of_exists t existing start end_ color id1 n1 hempty hex,
        applyHighlight_of_exists t existing start end_ color id2 n2 hempty hex]
    · rw [applyHighlight_of_merge t existing start end_ color id1 n1 hempty hex]
      set s := clampedStart t start end_ with hsdef
      set e2 := clampedEnd t start end_ with he2def
      set O := sameColorOverlapsOf existing s e2 color with hOdef
      set K := keepOf existing s e2 color with hKdef
      set ms := mergedStartOf s O with hmsdef
      set me := mergedEndOf e2 O with hmedef
      set A1 : Highlight := { id := id1, createdAt := n1, color := color, start := ms, end_ := me, anchor := mkAnchor t ms me } with hA1def
      have hA1c : A1.color = color := by rw [hA1def]
      have hA1s : A1.start = ms := by rw [hA1def]
      have hA1e : A1.end_ = me := by rw [hA1def]
      have hRperm : ((K ++ [A1]).insertionSort hlLe).Perm (K ++ [A1]) :=
        List.perm_insertionSort _ _
      have hmsle : ms ≤ s := mergedStartOf_le _ _
      have hmele : e2 ≤ me := le_mergedEndOf _ _
      have hslt : s < e2 := by omega
      have hA1mem : A1 ∈ (K ++ [A1]).insertionSort hlLe :=
        hRperm.mem_iff.mpr (List.mem_append_right _ (List.mem_singleton.mpr rfl))
      have hKpred : ∀ x ∈ K, x.color ≠ color ∨ x.end_ ≤ s ∨ e2 ≤ x.start := by
        intro x hx
        rw [hKdef] at hx
        unfold keepOf at hx
        have := List.of_mem_filter hx
        rwa [decide_eq_true_eq] at this
      by_cases hcase : ms = s ∧ me = e2
      · have hany : (((K ++ [A1]).insertionSort hlLe).any fun h =>
            decide (h.start = s ∧ h.end_ = e2 ∧ h.color = color)) = true := by
          apply List.any_eq_true.mpr
          exact ⟨A1, hA1mem, by simp [hA1s, hA1e, hA1c, hcase.1, hcase.2]⟩
        rw [applyHighlight_of_exists t _ start end_ color id2 n2 hempty hany]
      · have hanyR : ¬ (((K ++ [A1]).insertionSort hlLe).any fun h =>
            decide (h.start = s ∧ h.end_ = e2 ∧ h.color = color)) = true := by
          rw [List.any_eq_true]
          rintro ⟨x, hxmem, hxdec⟩
          rw [decide_eq_true_eq] at hxdec
          obtain ⟨hxs, hxe, hxc⟩ := hxdec
          rcases List.mem_append.mp (hRperm.mem_iff.mp hxmem) with hxK | hxA
          · rcases hKpred x hxK with hc | hle | hge
            · exact hc hxc
            · omega
            · omega
          · have hxeq : x = A1 := List.mem_singleton.mp hxA
            rw [hxeq, hA1s] at hxs
            rw [hxeq, hA1e] at hxe
            exact hcase ⟨hxs, hxe⟩
        rw [applyHighlight_of_merge t _ start end_ color id2 n2 hempty hanyR]
        have hO2 : (sameColorOverlapsOf ((K ++ [A1]).insertionSort hlLe) s e2 color).Perm
            [A1] := by
          unfold sameColorOverlapsOf
          refine (hRperm.filter _).trans ?_
          rw [List.filter_append]
          have hKf : K.filter (fun h =>
              decide (h.color = color ∧ ¬(h.end_ ≤ s ∨ e2 ≤ h.start))) = [] := by
            rw [List.filter_eq_nil_iff]
            intro x hxK hx
            rw [decide_eq_true_eq] at hx
            rcases hKpred x hxK with hc | hle | hge
            · exact hc hx.1
            · exact hx.2 (Or.inl hle)
            · exact hx.2 (Or.inr hge)
          have hA1f : [A1].filter (fun h =>
              decide (h.color = color ∧ ¬(h.end_ ≤ s ∨ e2 ≤ h.start))) = [A1] := by
            rw [List.filter_cons, List.filter_nil, if_pos]
            rw [decide_eq_true_eq]
            refine ⟨hA1c, ?_⟩
            rw [hA1s, hA1e]
            omega
          rw [hKf, hA1f, List.nil_append]
        have hA1memO2 : A1 ∈ sameColorOverlapsOf ((K ++ [A1]).insertionSort hlLe) s e2 color :=
          hO2.mem_iff.mpr (List.mem_singleton.mpr rfl)
        have hms2 : mergedStartOf s
            (sameColorOverlapsOf ((K ++ [A1]).insertionSort hlLe) s e2 color) = ms := by
          refine le_antisymm ?_ ?_
          · have := mergedStartOf_le_mem _ s _ hA1memO2
            rw [hA1s] at this
            exact this
          · refine le_mergedStartOf _ _ _ hmsle ?_
            intro o ho
            have hoA : o = A1 := List.mem_singleton.mp (hO2.mem_iff.mp ho)
            rw [hoA, hA1s]
        have hme2 : mergedEndOf e2
            (sameColorOverlapsOf ((K ++ [A1]).insertionSort hlLe) s e2 color) = me := by
          refine le_antisymm ?_ ?_
          · refine mergedEndOf_le _ _ _ hmele ?_
            intro o ho
            have hoA : o = A1 := List.mem_singleton.mp (hO2.mem_iff.mp ho)
            rw [hoA, hA1e]
          · have := mem_le_mergedEndOf _ e2 _ hA1memO2
            rw [hA1e] at this
            exact this
        have hK2 : (keepOf ((K ++ [A1]).insertionSort hlLe) s e2 color).Perm K := by
          unfold keepOf
          refine (hRperm.filter _).trans ?_
          rw [List.filter_append]
          have hKf : K.filter (fun h =>
              decide (h.color ≠ color ∨ h.end_ ≤ s ∨ e2 ≤ h.start)) = K := by
            rw [List.filter_eq_self]
            intro x hxK
            exact decide_eq_true (hKpred x hxK)
          have hA1f : [A1].filter (fun h =>
              decide (h.color ≠ color ∨ h.end_ ≤ s ∨ e2 ≤ h.start)) = [] := by
            rw [List.filter_cons, List.filter_nil, if_neg]
            rw [decide_eq_true_eq]
            rintro (hc | hle | hge)
            · exact hc hA1c
            · rw [hA1e] at hle
              omega
            · rw [hA1s] at hge
              omega
          rw [hKf, hA1f, List.append_nil]
        rw [hms2, hme2]
        refine ((List.perm_insertionSort hlLe _).map span).trans
          (List.Perm.trans ?_ ((hRperm.map span).symm))
        rw [List.map_append, List.map_append]
        refine (hK2.map span).append ?_
        have hfix : span { id := id2, createdAt := n2, color := color, start := ms, end_ := me, anchor := mkAnchor t ms me } = span A1 := by
          simp [span, hA1s, hA1e, hA1c]
        rw [List.map_cons, List.map_nil, List.map_cons, List.map_nil, hfix]

/-- Two highlight ranges strictly overlap: each starts before the other
ends (for valid ranges this says the half-open intervals intersect). -/
def rangesOverlap (a b : Highlight) : Prop :=
  a.start < b.end_ ∧ b.start < a.end_

/-- The no-same-color-overlap invariant over a highlight list: no two
distinct entries of the same color strictly overlap. -/
def noSameColorOverlap (l : List Highlight) : Prop :=
  List.Pairwise (fun a b => a.color = b.color → ¬ rangesOverlap a b) l

lemma noSameColorOverlap_symm :
    ∀ {x y : Highlight}, (x.color = y.color → ¬ rangesOverlap x y) →
      (y.color = x.color → ¬ rangesOverlap y x) := by
  intro x y hxy hcol hover
  exact hxy hcol.symm ⟨hover.2, hover.1⟩

/-- C9: applyHighlight preserves the no-same-color-overlap invariant on
valid highlight sets: if no two same-color highlights strictly overlap
in the input, none do in the output. -/
theorem applyHighlight_preserves_no_overlap (t : List Char) (existing : List Highlight)
    (start end_ : Int) (color : HighlightColor) (newId : String) (now : Nat)
    (hvalid : ∀ h ∈ existing, h.start < h.end_)
    (hpair : noSameColorOverlap existing) :
    noSameColorOverlap (applyHighlight t existing start end_ color newId now) := by
  by_cases hempty : clampedEnd t start end_ ≤ clampedStart t start end_
  · rw [applyHighlight_of_empty t existing start end_ color newId now hempty]
    exact hpair
  · by_cases hex : (existing.any fun h => decide (h.start = clampedStart t start end_ ∧
        h.end_ = clampedEnd t start end_ ∧ h.color = color)) = true
    · rw [applyHighlight_of_exists t existing start end_ color newId now hempty hex]
      exact hpair
    · rw [applyHighlight_of_merge t existing start end_ color newId now hempty hex]
      set s := clampedStart t start end_ with hsdef
      set e2 := clampedEnd t start end_ with he2def
      set O := sameColorOverlapsOf existing s e2 color with hOdef
      set K := keepOf existing s e2 color with hKdef
      set ms := mergedStartOf s O with hmsdef
      set me := mergedEndOf e2 O with hmedef
      have hslt : s < e2 := by omega
      have hKpred : ∀ x ∈ K, x.color ≠ color ∨ x.end_ ≤ s ∨ e2 ≤ x.start := by
        intro x hx
        rw [hKdef] at hx
        unfold keepOf at hx
        have := List.of_mem_filter hx
        rwa [decide_eq_true_eq] at this
      have hKmem : ∀ x ∈ K, x ∈ existing := by
        intro x hx
        rw [hKdef] at hx
        unfold keepOf at hx
        exact List.mem_of_mem_filter hx
      have hsymm : Symmetric (fun a b : Highlight =>
          a.color = b.color → ¬ rangesOverlap a b) := fun x y h => noSameColorOverlap_symm h
      have hOpred : ∀ o ∈ O, o ∈ existing ∧ o.color = color ∧ s < o.end_ ∧ o.start < e2 := by
        intro o ho
        rw [hOdef] at ho
        unfold sameColorOverlapsOf at ho
        have hmem := List.mem_of_mem_filter ho
        have := List.of_mem_filter ho
        rw [decide_eq_true_eq] at this
        exact ⟨hmem, this.1, by omega, by omega⟩
      unfold noSameColorOverlap
      apply (List.Perm.pairwise_iff noSameColorOverlap_symm
        (List.perm_insertionSort hlLe _)).mpr
      rw [List.pairwise_append]
      refine ⟨?_, List.pairwise_singleton _ _, ?_⟩
      · refine List.Pairwise.sublist ?_ hpair
        rw [hKdef]
        unfold keepOf
        exact List.filter_sublist _
      · intro x hxK b hbA hcolEq
        rw [List.mem_singleton] at hbA
        subst hbA
        rintro ⟨hx1, hx2⟩
        dsimp only [] at hx1 hx2
        have hxval : x.start < x.end_ := hvalid x (hKmem x hxK)
        have hxcol : x.color = color := hcolEq
        rcases hKpred x hxK with hc | hle | hge
        · exact hc hxcol
        · -- x ends at or before the request: merged start cannot reach into x
          have : x.end_ ≤ ms := by
            refine le_mergedStartOf _ _ _ hle ?_
            intro o ho
            obtain ⟨hoE, hoc, hoe, hos⟩ := hOpred o ho
            by_contra hcon
            have hxo : x ≠ o := by
              intro heq
              rw [heq] at hle
              omega
            have hR := List.Pairwise.forall hsymm hpair (hKmem x hxK) hoE hxo
            exact hR (hxcol.trans hoc.symm) ⟨by omega, by omega⟩
          omega
        · -- x starts at or after the request: merged end cannot reach into x
          have : me ≤ x.start := by
            refine mergedEndOf_le _ _ _ hge ?_
            intro o ho
            obtain ⟨hoE, hoc, hoe, hos⟩ := hOpred o ho
            by_contra hcon
            have hxo : x ≠ o := by
              intro heq
              rw [heq] at hge
              omega
            have hR := List.Pairwise.forall hsymm hpair (hKmem x hxK) hoE hxo
            exact hR (hxcol.trans hoc.symm) ⟨by omega, by omega⟩
          omega

/-- Concrete instantiation of applyHighlight_preserves_no_overlap. -/
theorem applyHighlight_preserves_no_overlap_witness :
    noSameColorOverlap
      (applyHighlight (List.replicate 10 'a') [pinkH05, blueH02] 3 8 .pink "id1" 1) :=
  applyHighlight_preserves_no_overlap (List.replicate 10 'a') [pinkH05, blueH02]
    3 8 .pink "id1" 1 (by decide)
    (by
      unfold noSameColorOverlap
      refine List.Pairwise.cons ?_ (List.pairwise_singleton _ _)
      intro b hb hcol
      rw [List.mem_singleton] at hb
      subst hb
      exact absurd hcol (by decide))

lemma clampN_le (n lo hi : Nat) (h : lo ≤ hi) : clampN n lo hi ≤ hi := by
  unfold clampN
  omega

lemma normalizedHighlights_wf (len : Nat) (hl : List Highlight) :
    ∀ h ∈ normalizedHighlights len hl, h.start < h.end_ ∧ h.end_ ≤ len := by
  intro h hmem
  unfold normalizedHighlights at hmem
  rw [List.Perm.mem_iff (List.perm_insertionSort _ _)] at hmem
  obtain ⟨h0, -, heq⟩ := List.mem_filterMap.mp hmem
  unfold normalizeHighlight at heq
  dsimp only [] at heq
  split at heq
  · exact absurd heq (by simp)
  · rename_i hlt
    obtain rfl : _ = h := Option.some.inj heq
    refine ⟨?_, ?_⟩ <;> dsimp only []
    · omega
    · exact clampN_le _ _ _ (Nat.zero_le _)

lemma segmentPoints_sorted (len : Nat) (hs : List Highlight) (srs : List SearchRange) :
    (segmentPoints len hs srs).Sorted (· < ·) := by
  unfold segmentPoints
  refine List.Sorted.lt_of_le (List.sorted_insertionSort _ _) ?_
  exact ((List.perm_insertionSort _ _).nodup_iff).mpr (List.nodup_dedup _)

lemma segmentPoints_mem (len : Nat) (hs : List Highlight) (srs : List SearchRange)
    (x : Nat) :
    x ∈ segmentPoints len hs srs ↔
      x ∈ (0 : Nat) :: len ::
        ((hs.map Highlight.start ++ hs.map Highlight.end_) ++
          (srs.map SearchRange.start ++ srs.map SearchRange.end_)) := by
  unfold segmentPoints
  rw [List.Perm.mem_iff (List.perm_insertionSort _ _), List.mem_dedup]

lemma jsSlice_length (t : List Char) (a b : Nat) :
    (jsSlice t a b).length = min (b - a) (t.length - a) := by
  simp [jsSlice]

lemma mkSegments_cons (txt : List Char) (hs : List Highlight) (srs : List SearchRange)
    (a b : Nat) (rest : List Nat) (hab : a < b) (hblen : b ≤ txt.length) :
    mkSegments txt hs srs (a :: b :: rest) =
      ⟨a, b, topHighlightFor hs a b, searchFor srs a b⟩ :: mkSegments txt hs srs (b :: rest) := by
  have hne : jsSlice txt a b ≠ [] := by
    intro hnil
    have := congrArg List.length hnil
    rw [jsSlice_length] at this
    simp at this
    omega
  rw [mkSegments]
  rw [if_neg (by omega : ¬ b ≤ a), if_neg hne]

lemma chain_le_getLastD : ∀ (rest : List Nat) (a : Nat),
    List.Chain' (· < ·) (a :: rest) → a ≤ rest.getLastD a := by
  intro rest
  induction rest with
  | nil => intro a _; exact le_refl a
  | cons b r ih =>
    intro a hc
    obtain ⟨hab, hc'⟩ := List.chain'_cons.mp hc
    rw [List.getLastD_cons]
    exact le_trans hab.le (ih b hc')

lemma chain_mem_le_getLastD : ∀ (rest : List Nat) (a : Nat),
    List.Chain' (· < ·) (a :: rest) → ∀ x ∈ a :: rest, x ≤ rest.getLastD a := by
  intro rest
  induction rest with
  | nil =>
    intro a _ x hx
    rw [List.mem_singleton] at hx
    subst hx
    exact le_refl _
  | cons b r ih =>
    intro a hc x hx
    obtain ⟨hab, hc'⟩ := List.chain'_cons.mp hc
    rw [List.getLastD_cons]
    rcases List.mem_cons.mp hx with rfl | hx'
    · exact le_trans hab.le (ih b hc' b (List.mem_cons_self _ _))
    · exact ih b hc' x hx'

lemma mkSegments_flatten (txt : List Char) (hs : List Highlight) (srs : List SearchRange) :
    ∀ (rest : List Nat) (a : Nat), List.Chain' (· < ·) (a :: rest) →
    (∀ x ∈ a :: rest, x ≤ txt.length) →
    ((mkSegments txt hs srs (a :: rest)).map (fun sg => jsSlice txt sg.a sg.b)).flatten =
      jsSlice txt a (rest.getLastD a) := by
  intro rest
  induction rest with
  | nil =>
    intro a _ _
    simp [mkSegments, jsSlice]
  | cons b r ih =>
    intro a hc hb
    obtain ⟨hab, hc'⟩ := List.chain'_cons.mp hc
    rw [mkSegments_cons txt hs srs a b r hab (hb b (by simp)), List.map_cons,
      List.flatten_cons, ih b hc' (fun x hx => hb x (List.mem_cons_of_mem _ hx)),
      List.getLastD_cons]
    exact jsSlice_append txt a b _ hab.le (chain_le_getLastD r b hc')

lemma mkSegments_props (txt : List Char) (hs : List Highlight) (srs : List SearchRange) :
    ∀ (rest : List Nat) (a : Nat), List.Chain' (· < ·) (a :: rest) →
    (∀ x ∈ a :: rest, x ≤ txt.length) →
    List.Chain' (fun s1 s2 => s1.b = s2.a) (mkSegments txt hs srs (a :: rest)) ∧
      (∀ sg ∈ mkSegments txt hs srs (a :: rest), sg.a < sg.b ∧ sg.b ≤ txt.length) ∧
      (∀ sg ∈ (mkSegments txt hs srs (a :: rest)).head?, sg.a = a) := by
  intro rest
  induction rest with
  | nil =>
    intro a _ _
    refine ⟨?_, ?_, ?_⟩ <;> simp [mkSegments]
  | cons b r ih =>
    intro a hc hb
    obtain ⟨hab, hc'⟩ := List.chain'_cons.mp hc
    obtain ⟨ihc, ihm, ihh⟩ := ih b hc' (fun x hx => hb x (List.mem_cons_of_mem _ hx))
    rw [mkSegments_cons txt hs srs a b r hab (hb b (by simp))]
    refine ⟨?_, ?_, ?_⟩
    · rw [List.chain'_cons']
      exact ⟨fun y hy => (ihh y hy).symm, ihc⟩
    · intro sg hsg
      rcases List.mem_cons.mp hsg with rfl | hsg'
      · exact ⟨hab, hb b (by simp)⟩
      · exact ihm sg hsg'
    · intro sg hsg
      simp only [List.head?_cons, Option.mem_def, Option.some.injEq] at hsg
      rw [← hsg]

lemma segments_chain_lt : ∀ (l : List Segment),
    List.Chain' (fun s1 s2 => s1.b = s2.a) l → (∀ sg ∈ l, sg.a < sg.b) →
    List.Chain' (fun s1 s2 => s1.a < s2.a) l := by
  intro l
  induction l with
  | nil => intro _ _; exact List.chain'_nil
  | cons x tl ih =>
    intro hc hm
    rw [List.chain'_cons'] at hc ⊢
    obtain ⟨hhead, htl⟩ := hc
    refine ⟨?_, ih htl fun sg h => hm sg (List.mem_cons_of_mem _ h)⟩
    intro y hy
    have h1 := hhead y hy
    have h2 := hm x (List.mem_cons_self _ _)
    omega

/-- C7: the render segmenter totally covers the text: for every text,
every highlight set and every in-bounds search-range set, the produced
segments are consecutive (each segment ends where the next starts,
hence ascending starts, no gaps, no overlaps) and concatenating their
text slices in order reproduces the input text exactly. -/
theorem segmenter_total_coverage (txt : List Char) (highlights : List Highlight)
    (srs : List SearchRange)
    (hb : ∀ r ∈ srs, r.start ≤ txt.length ∧ r.end_ ≤ txt.length) :
    ((segmentTranscript txt highlights srs).map
        (fun sg => jsSlice txt sg.a sg.b)).flatten = txt ∧
      List.Chain' (fun s1 s2 => s1.b = s2.a) (segmentTranscript txt highlights srs) ∧
      List.Chain' (fun s1 s2 => s1.a < s2.a) (segmentTranscript txt highlights srs) ∧
      (∀ sg ∈ segmentTranscript txt highlights srs, sg.a ≤ sg.b) := by
  have hhs := normalizedHighlights_wf txt.length highlights
  have hbound : ∀ x ∈ segmentPoints txt.length
      (normalizedHighlights txt.length highlights) srs, x ≤ txt.length := by
    intro x hx
    rw [segmentPoints_mem] at hx
    rcases List.mem_cons.mp hx with rfl | hx
    · exact Nat.zero_le _
    rcases List.mem_cons.mp hx with rfl | hx
    · exact le_refl _
    rcases List.mem_append.mp hx with hx | hx
    · rcases List.mem_append.mp hx with hx | hx
      · obtain ⟨h0, hm, rfl⟩ := List.mem_map.mp hx
        exact le_trans (hhs h0 hm).1.le (hhs h0 hm).2
      · obtain ⟨h0, hm, rfl⟩ := List.mem_map.mp hx
        exact (hhs h0 hm).2
    · rcases List.mem_append.mp hx with hx | hx
      · obtain ⟨r, hm, rfl⟩ := List.mem_map.mp hx
        exact (hb r hm).1
      · obtain ⟨r, hm, rfl⟩ := List.mem_map.mp hx
        exact (hb r hm).2
  have h0mem : (0 : Nat) ∈ segmentPoints txt.length
      (normalizedHighlights txt.length highlights) srs := by
    rw [segmentPoints_mem]
    exact List.mem_cons_self _ _
  have hlenmem : txt.length ∈ segmentPoints txt.length
      (normalizedHighlights txt.length highlights) srs := by
    rw [segmentPoints_mem]
    exact List.mem_cons_of_mem _ (List.mem_cons_self _ _)
  have hsorted := segmentPoints_sorted txt.length
    (normalizedHighlights txt.length highlights) srs
  unfold segmentTranscript
  dsimp only []
  split
  · refine ⟨?_, List.chain'_singleton _, List.chain'_singleton _, ?_⟩
    · simp [jsSlice]
    · intro sg hsg
      rw [List.mem_singleton] at hsg
      subst hsg
      exact Nat.zero_le _
  · rcases hpts : segmentPoints txt.length
        (normalizedHighlights txt.length highlights) srs with - | ⟨a, rest⟩
    · rw [hpts] at h0mem
      cases h0mem
    · rw [hpts] at h0mem hlenmem hbound hsorted
      have hchain : List.Chain' (· < ·) (a :: rest) :=
        List.chain'_iff_pairwise.mpr hsorted
      have hpw : ∀ x ∈ rest, a < x := (List.pairwise_cons.mp hsorted).1
      have ha : a = 0 := by
        rcases List.mem_cons.mp h0mem with rfl | hx
        · rfl
        · have := hpw 0 hx
          omega
      have hlast : rest.getLastD a = txt.length := by
        have h1 := chain_mem_le_getLastD rest a hchain txt.length hlenmem
        have h2 := hbound _ (List.getLastD_mem_cons rest a)
        omega
      obtain ⟨hcc, hmm, -⟩ := mkSegments_props txt
        (normalizedHighlights txt.length highlights) srs rest a hchain hbound
      refine ⟨?_, hcc, ?_, ?_⟩
      · rw [mkSegments_flatten txt (normalizedHighlights txt.length highlights) srs
          rest a hchain hbound, hlast, ha]
        simp [jsSlice]
      · exact segments_chain_lt _ hcc fun sg hsg => (hmm sg hsg).1
      · exact fun sg hsg => (hmm sg hsg).1.le

/-- Concrete instantiation of segmenter_total_coverage. -/
theorem segmenter_total_coverage_witness :
    ((segmentTranscript ['a', 'b', 'c', 'd'] [cdHighlight] [⟨1, 3, 0⟩]).map
        (fun sg => jsSlice ['a', 'b', 'c', 'd'] sg.a sg.b)).flatten = ['a', 'b', 'c', 'd'] ∧
      List.Chain' (fun s1 s2 => s1.b = s2.a)
        (segmentTranscript ['a', 'b', 'c', 'd'] [cdHighlight] [⟨1, 3, 0⟩]) ∧
      List.Chain' (fun s1 s2 => s1.a < s2.a)
        (segmentTranscript ['a', 'b', 'c', 'd'] [cdHighlight] [⟨1, 3, 0⟩]) ∧
      (∀ sg ∈ segmentTranscript ['a', 'b', 'c', 'd'] [cdHighlight] [⟨1, 3, 0⟩],
        sg.a ≤ sg.b) :=
  segmenter_total_coverage ['a', 'b', 'c', 'd'] [cdHighlight] [⟨1, 3, 0⟩] (by decide)

lemma filterMap_id_of_mem {α : Type} (f : α → Option α) :
    ∀ (l : List α), (∀ a ∈ l, f a = some a) → l.filterMap f = l := by
  intro l
  induction l with
  | nil => intro _; rfl
  | cons a tl ih =>
    intro h
    rw [List.filterMap_cons, h a (List.mem_cons_self _ _),
      ih fun x hx => h x (List.mem_cons_of_mem _ hx)]

lemma normalizedHighlights_perm (len : Nat) (hl : List Highlight)
    (hwf : ∀ h ∈ hl, h.start < h.end_ ∧ h.end_ ≤ len) :
    (normalizedHighlights len hl).Perm hl := by
  unfold normalizedHighlights
  refine (List.perm_insertionSort _ _).trans ?_
  rw [filterMap_id_of_mem _ hl ?_]
  intro h hm
  unfold normalizeHighlight
  dsimp only []
  have h1 := (hwf h hm).1
  have h2 := (hwf h hm).2
  have hs : clampN h.start 0 len = h.start := by
    unfold clampN
    omega
  have he : clampN h.end_ 0 len = h.end_ := by
    unfold clampN
    omega
  rw [hs, he, if_neg (by omega)]

lemma foldl_latest_spec :
    ∀ (cs : List Highlight) (c : Highlight),
      (cs.foldl (fun best h => if best.createdAt < h.createdAt then h else best) c) ∈
          c :: cs ∧
        ∀ x ∈ c :: cs, x.createdAt ≤
          (cs.foldl (fun best h => if best.createdAt < h.createdAt then h else best)
            c).createdAt := by
  intro cs
  induction cs with
  | nil =>
    intro c
    refine ⟨List.mem_singleton.mpr rfl, ?_⟩
    intro x hx
    rw [List.mem_singleton] at hx
    subst hx
    exact le_refl _
  | cons d ds ih =>
    intro c
    rw [List.foldl_cons]
    obtain ⟨ihmem, ihbound⟩ := ih (if c.createdAt < d.createdAt then d else c)
    constructor
    · rcases List.mem_cons.mp ihmem with heq | hmem
      · rw [heq]
        split
        · exact List.mem_cons_of_mem _ (List.mem_cons_self _ _)
        · exact List.mem_cons_self _ _
      · exact List.mem_cons_of_mem _ (List.mem_cons_of_mem _ hmem)
    · intro x hx
      have hstep : ∀ y : Highlight, y.createdAt ≤
          (if c.createdAt < d.createdAt then d else c).createdAt → y.createdAt ≤
          (ds.foldl (fun best h => if best.createdAt < h.createdAt then h else best)
            (if c.createdAt < d.createdAt then d else c)).createdAt :=
        fun y hy => le_trans hy
          (ihbound _ (List.mem_cons_self _ _))
      rcases List.mem_cons.mp hx with rfl | hx'
      · refine hstep x ?_
        split <;> omega
      · rcases List.mem_cons.mp hx' with rfl | hx2
        · refine hstep x ?_
          split <;> omega
        · exact ihbound x (List.mem_cons_of_mem _ hx2)

lemma topHighlightFor_none (hs : List Highlight) (a b : Nat) :
    topHighlightFor hs a b = none ↔ ∀ g ∈ hs, ¬(g.start < b ∧ a < g.end_) := by
  unfold topHighlightFor
  rcases hfil : hs.filter fun h => decide (h.start < b ∧ a < h.end_) with - | ⟨c, cs⟩
  · rw [hfil]
    refine iff_of_true rfl ?_
    intro g hg hcov
    have : g ∈ hs.filter fun h => decide (h.start < b ∧ a < h.end_) :=
      List.mem_filter.mpr ⟨hg, decide_eq_true hcov⟩
    rw [hfil] at this
    cases this
  · rw [hfil]
    refine iff_of_false (by simp) ?_
    intro hall
    have hc : c ∈ hs.filter fun h => decide (h.start < b ∧ a < h.end_) := by
      rw [hfil]
      exact List.mem_cons_self _ _
    have := List.of_mem_filter hc
    rw [decide_eq_true_eq] at this
    exact hall c (List.mem_of_mem_filter hc) this

lemma topHighlightFor_some (hs : List Highlight) (a b : Nat) (h : Highlight)
    (heq : topHighlightFor hs a b = some h) :
    h ∈ hs ∧ (h.start < b ∧ a < h.end_) ∧
      ∀ g ∈ hs, g.start < b → a < g.end_ → g.createdAt ≤ h.createdAt := by
  unfold topHighlightFor at heq
  rcases hfil : hs.filter fun g => decide (g.start < b ∧ a < g.end_) with - | ⟨c, cs⟩
  · rw [hfil] at heq
    cases heq
  · rw [hfil] at heq
    obtain heq' : _ = h := Option.some.inj heq
    obtain ⟨hmem, hbound⟩ := foldl_latest_spec cs c
    rw [heq'] at hmem hbound
    have hhfil : h ∈ hs.filter fun g => decide (g.start < b ∧ a < g.end_) := by
      rw [hfil]
      exact hmem
    have hcov := List.of_mem_filter hhfil
    rw [decide_eq_true_eq] at hcov
    refine ⟨List.mem_of_mem_filter hhfil, hcov, ?_⟩
    intro g hg h1 h2
    have : g ∈ hs.filter fun g => decide (g.start < b ∧ a < g.end_) :=
      List.mem_filter.mpr ⟨hg, decide_eq_true ⟨h1, h2⟩⟩
    rw [hfil] at this
    exact hbound g this

lemma mkSegments_fields (txt : List Char) (hs : List Highlight) (srs : List SearchRange) :
    ∀ (pts : List Nat), ∀ sg ∈ mkSegments txt hs srs pts,
      sg.hl = topHighlightFor hs sg.a sg.b ∧ sg.sr = searchFor srs sg.a sg.b := by
  intro pts
  induction pts with
  | nil => intro sg hsg; cases hsg
  | cons a rest ih =>
    cases rest with
    | nil =>
      intro sg hsg
      rw [show mkSegments txt hs srs [a] = [] from rfl] at hsg
      cases hsg
    | cons b r =>
      intro sg hsg
      rw [mkSegments] at hsg
      split at hsg
      · exact ih sg hsg
      · split at hsg
        · exact ih sg hsg
        · rcases List.mem_cons.mp hsg with rfl | hsg'
          · exact ⟨rfl, rfl⟩
          · exact ih sg hsg'

/-- A concrete pink highlight covering exactly the whole text "ab". -/
def fullPinkH : Highlight :=
  { id := "h1", createdAt := 5, color := .pink, start := 0, end_ := 2,
    anchor := ⟨['a', 'b'], [], []⟩ }

/-- C8 counterexample: a highlight spanning exactly the whole transcript
contributes no boundary other than 0 and length, so the segmenter takes
its two-point early return and renders the whole text as a single
unstyled segment although the highlight covers it (its start is below
the segment end and its end above the segment start). -/
theorem segment_full_span_unstyled_counterexample :
    segmentTranscript ['a', 'b'] [fullPinkH] [] = [⟨0, 2, none, none⟩] ∧
    fullPinkH.start < 2 ∧ 0 < fullPinkH.end_ ∧
    fullPinkH.start < fullPinkH.end_ ∧
    fullPinkH.end_ ≤ (['a', 'b'] : List Char).length := by decide

/-- C8 (amended): when the collected boundary set has more than two
points (the segmenter's main path), every produced segment [a, b)
carries as its styling highlight the covering highlight (h.start < b and
a < h.end) with the greatest createdAt, and carries none exactly when no
highlight covers it.  In the degenerate case where every highlight spans
exactly the full text (only boundaries 0 and length), the text is
rendered as one unstyled run instead (see the counterexample). -/
theorem segment_top_highlight (txt : List Char) (highlights : List Highlight)
    (srs : List SearchRange)
    (hwf : ∀ h ∈ highlights, h.start < h.end_ ∧ h.end_ ≤ txt.length)
    (hpts : 2 < (segmentPoints txt.length
      (normalizedHighlights txt.length highlights) srs).length) :
    ∀ sg ∈ segmentTranscript txt highlights srs,
      (sg.hl = none → ∀ g ∈ highlights, ¬(g.start < sg.b ∧ sg.a < g.end_)) ∧
      (∀ h, sg.hl = some h → h ∈ highlights ∧ (h.start < sg.b ∧ sg.a < h.end_) ∧
        ∀ g ∈ highlights, g.start < sg.b → sg.a < g.end_ →
          g.createdAt ≤ h.createdAt) := by
  intro sg hsg
  have hperm := normalizedHighlights_perm txt.length highlights hwf
  unfold segmentTranscript at hsg
  dsimp only [] at hsg
  rw [if_neg (by omega)] at hsg
  obtain ⟨hhl, -⟩ := mkSegments_fields txt (normalizedHighlights txt.length highlights)
    srs _ sg hsg
  constructor
  · intro hnone g hg hcov
    rw [hhl] at hnone
    exact (topHighlightFor_none _ _ _).mp hnone g (hperm.mem_iff.mpr hg) hcov
  · intro h hsome
    rw [hhl] at hsome
    obtain ⟨hmem, hcov, hmax⟩ := topHighlightFor_some _ _ _ _ hsome
    exact ⟨hperm.mem_iff.mp hmem, hcov,
      fun g hg h1 h2 => hmax g (hperm.mem_iff.mpr hg) h1 h2⟩

/-- Concrete instantiation of segment_top_highlight: on "abcd" with the
highlight [2, 4), the produced segment [2, 4) carries that highlight. -/
theorem segment_top_highlight_witness :
    ((⟨2, 4, some cdHighlight, none⟩ : Segment).hl = none →
      ∀ g ∈ [cdHighlight], ¬(g.start < (⟨2, 4, some cdHighlight, none⟩ : Segment).b ∧
        (⟨2, 4, some cdHighlight, none⟩ : Segment).a < g.end_)) ∧
    (∀ h, (⟨2, 4, some cdHighlight, none⟩ : Segment).hl = some h →
      h ∈ [cdHighlight] ∧
        (h.start < (⟨2, 4, some cdHighlight, none⟩ : Segment).b ∧
          (⟨2, 4, some cdHighlight, none⟩ : Segment).a < h.end_) ∧
        ∀ g ∈ [cdHighlight], g.start < (⟨2, 4, some cdHighlight, none⟩ : Segment).b →
          (⟨2, 4, some cdHighlight, none⟩ : Segment).a < g.end_ →
            g.createdAt ≤ h.createdAt) :=
  segment_top_highlight ['a', 'b', 'c', 'd'] [cdHighlight] [] (by decide) (by decide)
    ⟨2, 4, some cdHighlight, none⟩ (by decide)
